import Mathlib

/-!
Verification of the `turnos-ivu` schedule extractor against its design
specification.  The development shallowly embeds the text- and
list-processing core of `get_turnos.py` and `scrape_and_publish.py`:
strings are Lean `String`s (processed through their `List Char` data),
regular-expression matching is expanded into the explicit deterministic
scans the patterns denote, and HTML access through BeautifulSoup /
Playwright is abstracted as structured inputs holding the texts the
source reads off the parsed tree.  Character classes follow the ASCII
portion of the Python semantics, which is the portion exercised by the
embedded call sites.
-/

/-! ## Character classes (ASCII fragment of the Python semantics) -/

/-- ASCII digit test, the `\d` class of the embedded patterns. -/
def isDig (c : Char) : Bool := 48 ≤ c.toNat && c.toNat ≤ 57

/-- ASCII whitespace test, the `\s` class and `str.strip` set:
space, tab, newline, carriage return, vertical tab, form feed. -/
def isSpc (c : Char) : Bool :=
  c.toNat = 32 || c.toNat = 9 || c.toNat = 10 || c.toNat = 13 || c.toNat = 11 || c.toNat = 12

/-- ASCII word-character test, the `\w` class used by the `\b` boundary. -/
def isWordChar (c : Char) : Bool :=
  (65 ≤ c.toNat && c.toNat ≤ 90) || (97 ≤ c.toNat && c.toNat ≤ 122) ||
  (48 ≤ c.toNat && c.toNat ≤ 57) || c.toNat = 95

/-- Numeric value of a digit character. -/
def charVal (c : Char) : Nat := c.toNat - 48

/-- Decimal digit character for `n < 10` (total, clamping above 9). -/
def digitCh (n : Nat) : Char :=
  match n with
  | 0 => '0' | 1 => '1' | 2 => '2' | 3 => '3' | 4 => '4'
  | 5 => '5' | 6 => '6' | 7 => '7' | 8 => '8' | _ => '9'

/-- ASCII upper-casing of one character, the fragment of `str.upper`
exercised by the classifier's label texts. -/
def upChar (c : Char) : Char :=
  if 97 ≤ c.toNat && c.toNat ≤ 122 then Char.ofNat (c.toNat - 32) else c

/-- ASCII lower-casing of one character, the fragment of `str.lower`
exercised by the login check. -/
def lowChar (c : Char) : Char :=
  if 65 ≤ c.toNat && c.toNat ≤ 90 then Char.ofNat (c.toNat + 32) else c

/-- String upper-casing (`t.upper()`), ASCII fragment. -/
def pyUpper (s : String) : String := String.mk (s.data.map upChar)

/-- String lower-casing (`t.lower()`), ASCII fragment. -/
def pyLower (s : String) : String := String.mk (s.data.map lowChar)

/-- Truthiness of a Python `Optional[str]`: `None` and `""` are falsy. -/
def truthyStr : Option String → Bool
  | none => false
  | some s => !s.data.isEmpty

/-! ## Generic list scans shared by the embedded patterns -/

/-- Leading-match test: the pattern list heads the subject list. -/
def startsWithL : List Char → List Char → Bool
  | _, [] => true
  | [], _ :: _ => false
  | a :: l, b :: p => a == b && startsWithL l p

/-- Substring test, the Python `pat in s` operator on the char level. -/
def containsSub (l p : List Char) : Bool :=
  match l with
  | [] => startsWithL [] p
  | c :: r => startsWithL (c :: r) p || containsSub r p

/-- Python `s.strip()`: drop whitespace from both ends. -/
def pyStrip (l : List Char) : List Char :=
  ((l.dropWhile isSpc).reverse.dropWhile isSpc).reverse

/-- Whitespace-run collapser; the flag records whether the previous
character belonged to a whitespace run already rendered as one space. -/
def collapseWsAux : Bool → List Char → List Char
  | _, [] => []
  | inRun, c :: r =>
    if isSpc c then
      if inRun then collapseWsAux true r else ' ' :: collapseWsAux true r
    else c :: collapseWsAux false r

/-- Collapse every maximal whitespace run to one space,
the `re.sub(r"\s+", " ", _)` step of `simplify`. -/
def collapseWs (l : List Char) : List Char := collapseWsAux false l

/-- Embedding of `simplify` (get_turnos.py line 121): strip, then collapse
interior whitespace runs to single spaces. -/
def simplify (s : String) : String := String.mk (collapseWs (pyStrip s.data))

/-- Python `" ".join` over a list of strings. -/
def pyJoin (sep : String) : List String → String
  | [] => ""
  | [x] => x
  | x :: y :: r => x ++ sep ++ pyJoin sep (y :: r)

/-- Value of a digit run, most significant digit first. -/
def digitsVal (l : List Char) : Nat := l.foldl (fun a c => a * 10 + charVal c) 0

/-- Two-character zero-padded rendering of `n < 100`,
the `f"{n:02d}"` format applied by `norm_hhmm` after its range check. -/
def fmt2chars (n : Nat) : List Char :=
  if n < 10 then ['0', digitCh n] else [digitCh (n / 10), digitCh (n % 10)]

/-- Canonical `HH:MM` string built from hour and minute values. -/
def canonHHMM (h m : Nat) : String := String.mk (fmt2chars h ++ ':' :: fmt2chars m)

/-! ## TimeNormalizer: `norm_hhmm` (get_turnos.py lines 104-114) -/

/-- Deterministic expansion of the anchored search
`re.match(r"^\s*(\d{1,2}):(\d{1,2})\s*$", s)`: optional whitespace, a one- or
two-digit hour group, a colon, a one- or two-digit minute group, optional
trailing whitespace.  Returns the numeric values of the two groups. -/
def matchHHMM (l : List Char) : Option (Nat × Nat) :=
  let l1 := l.dropWhile isSpc
  let d1 := l1.takeWhile isDig
  let r1 := l1.dropWhile isDig
  if d1.length = 0 || 2 < d1.length then none
  else
    match r1 with
    | ':' :: r2 =>
      let d2 := r2.takeWhile isDig
      let r3 := r2.dropWhile isDig
      if d2.length = 0 || 2 < d2.length then none
      else if r3.all isSpc then some (digitsVal d1, digitsVal d2) else none
    | _ => none

/-- Embedding of `norm_hhmm`: reject falsy input, match the anchored
pattern, range-check `0 ≤ h < 24`, `0 ≤ m < 60`, and zero-pad. -/
def norm_hhmm (s : String) : Option String :=
  if s.data.isEmpty then none
  else
    match matchHHMM s.data with
    | some (h, m) => if h < 24 && m < 60 then some (canonHHMM h m) else none
    | none => none

/-! ## `parse_time` (get_turnos.py lines 116-119) -/

/-- Match of the unanchored pattern `(\d{1,2}):(\d{2})` at the head of the
list: a two-digit hour is preferred, else a one-digit hour; returns the
full matched token (`group(0)`). -/
def timeTokAt (l : List Char) : Option (List Char) :=
  match l with
  | a :: b :: c :: d :: e :: _ =>
    if isDig a && isDig b && c == ':' && isDig d && isDig e then some [a, b, c, d, e]
    else if isDig a && b == ':' && isDig c && isDig d then some [a, b, c, d]
    else none
  | [a, b, c, d] =>
    if isDig a && b == ':' && isDig c && isDig d then some [a, b, c, d] else none
  | _ => none

/-- Leftmost match of `(\d{1,2}):(\d{2})`, the `re.search` scan. -/
def searchTime : List Char → Option (List Char)
  | [] => none
  | c :: r =>
    match timeTokAt (c :: r) with
    | some tok => some tok
    | none => searchTime r

/-- Embedding of `parse_time`: first `HH:MM`-like token of the text,
normalised through `norm_hhmm` (hence `none` when out of range). -/
def parse_time (s : String) : Option String :=
  (searchTime s.data).bind fun tok => norm_hhmm (String.mk tok)

/-! ## StatusClassifier: `detect_status` (get_turnos.py lines 124-137) -/

/-- Left word-boundary condition as a proposition. -/
def PrevOk (prev : Option Char) : Prop := ∀ c, prev = some c → isWordChar c = false

/-- Left word-boundary test against the previous character (edge passes). -/
def prevOkB : Option Char → Bool
  | none => true
  | some c => !isWordChar c

/-- Right word-boundary test against the following text (edge passes). -/
def headOkB : List Char → Bool
  | [] => true
  | d :: _ => !isWordChar d

/-- Word-occurrence scan: `prev` is the character immediately before the
current position (`none` at the start of the subject).  A match needs the
pattern at the current position, a non-word character (or the edge) just
before, and a non-word character (or the edge) just after.  This expands
`re.search(r"\bW\b", _)` for the patterns used here, whose characters are
all word characters. -/
def hasWordAux (w : List Char) : Option Char → List Char → Bool
  | prev, [] => prevOkB prev && startsWithL [] w
  | prev, c :: r =>
    (prevOkB prev && startsWithL (c :: r) w && headOkB ((c :: r).drop w.length))
    || hasWordAux w (some c) r

/-- Whole-word occurrence of `w` in `l` (`re.search(r"\bW\b", l)`). -/
def hasWord (l w : List Char) : Bool := hasWordAux w none l

/-- The classifier's local `joined`: the upper-cased labels joined by
single spaces. -/
def joinedOf (texts : List String) : String := pyJoin " " (texts.map pyUpper)

/-- Embedding of `detect_status`: join the upper-cased labels with spaces,
then run the first-match-wins rule chain of the source. -/
def detect_status (texts : List String) (has_hours : Bool) : String :=
  if containsSub (joinedOf texts).data ['L', 'D'] then "LD"
  else if hasWord (joinedOf texts).data ['D', 'E', 'S', 'C', 'A', 'N', 'S', 'O'] then "DESCANSO"
  else if hasWord (joinedOf texts).data ['I'] && !has_hours then "I"
  else if has_hours then "SERVICIO"
  else "LIBRE"

/-! ## Overnight predicate: `is_overnight` (get_turnos.py lines 139-149) -/

/-- Python `s.split(":")` on the character level. -/
def splitColon : List Char → List (List Char)
  | [] => [[]]
  | c :: r =>
    if c == ':' then [] :: splitColon r
    else
      match splitColon r with
      | h :: t => (c :: h) :: t
      | [] => [[c]]

/-- Python `int(s)` on a char list: strip whitespace, optional sign, then a
non-empty digit run (the fragment reachable from canonical time strings). -/
def pyIntChars (l : List Char) : Option Int :=
  let s := pyStrip l
  if s.isEmpty then none
  else if s.head? = some '-' then
    if !(s.drop 1).isEmpty && (s.drop 1).all isDig then
      some (-(Int.ofNat (digitsVal (s.drop 1))))
    else none
  else if s.head? = some '+' then
    if !(s.drop 1).isEmpty && (s.drop 1).all isDig then
      some (Int.ofNat (digitsVal (s.drop 1)))
    else none
  else if s.all isDig then some (Int.ofNat (digitsVal s)) else none

/-- Minutes value of an `H:M` string: `h, m = map(int, s.split(":"))` then
`h * 60 + m`; `none` models the exception path (wrong arity or bad int). -/
def hhmmToMinutes (s : String) : Option Int :=
  match splitColon s.data with
  | [a, b] =>
    match pyIntChars a, pyIntChars b with
    | some h, some m => some (h * 60 + m)
    | _, _ => none
  | _ => none

/-- Embedding of `is_overnight`: false when either bound is falsy, false on
any conversion failure, else true iff end minutes are strictly below start
minutes. -/
def is_overnight (s? e? : Option String) : Bool :=
  if !truthyStr s? || !truthyStr e? then false
  else
    match s?, e? with
    | some s, some e =>
      (match hhmmToMinutes s, hhmmToMinutes e with
       | some sm, some em => em < sm
       | _, _ => false)
    | _, _ => false

/-! ## DayRecordExtractor: `parse_day` (get_turnos.py lines 304-375)

HTML access is abstracted: a `RowCells` holds, for one selected table row,
the text of each cell the source reads (`none` when the selector finds no
cell), and `HeaderInfo` holds the texts read off the details header.  The
`html_hash` field of the source record applies an external crypto
primitive (`hashlib.sha256`) to the raw markup and is outside the
embedding; no claim mentions it. -/

/-- Texts of the cells the source selects in one table row. -/
structure RowCells where
  start_cell : Option String
  end_cell : Option String
  from_cell : Option String
  to_cell : Option String
  type_cell : Option String
  train_cell : Option String
deriving DecidableEq

/-- Texts the source reads off the details header: the duty-type element's
text and the stripped strings of the labels element (`none` when the
labels element is absent). -/
structure HeaderInfo where
  tipo_el : Option String
  label_strings : Option (List String)
deriving DecidableEq

/-- One day's markup, abstracted to the texts the selectors produce. -/
structure DayInput where
  header : Option HeaderInfo
  table : Option (List RowCells)
deriving DecidableEq

/-- Embedding of the `DiaTurno` dataclass (without the external-hash
field). `endT` renders the source field `end`, a Lean keyword. -/
structure DiaTurno where
  date : String
  status : String
  tipo : Option String
  start : Option String
  endT : Option String
  overnight : Bool
  location_from : Option String
  location_to : Option String
  train_number : Option String
  raw_frag_href : String
  notes : List String
deriving DecidableEq

/-- Embedding of `extract_texts`: the element's stripped strings,
simplified, with falsy (empty) results dropped. -/
def extract_texts (nodes : Option (List String)) : List String :=
  match nodes with
  | none => []
  | some ns => (ns.map simplify).filter (fun t => !t.data.isEmpty)

/-- Python `re.sub(r"[^A-Za-z0-9\- ]+", "", _)`: keep only letters, digits,
hyphens and spaces (train-number normalisation). -/
def keepTrainChars (l : List Char) : List Char :=
  l.filter fun c =>
    (65 ≤ c.toNat && c.toNat ≤ 90) || (97 ≤ c.toNat && c.toNat ≤ 122) ||
    (48 ≤ c.toNat && c.toNat ≤ 57) || c.toNat = 45 || c.toNat = 32

/-- Mutable loop state of `parse_day`'s row walk. -/
structure ParseState where
  start? : Option String
  end? : Option String
  loc_from : Option String
  loc_to : Option String
  labels : List String
  train_no : Option String

/-- One iteration of the row loop of `parse_day` (lines 328-355): first
start wins, last end wins, first truthy from-location wins, last
to-location wins, every type-cell text is appended to the labels, first
truthy normalised train number wins.  (The source also computes an unused
`row_txt`; it is dead and not modelled.) -/
def stepRow (st : ParseState) (row : RowCells) : ParseState :=
  let stt := row.start_cell.bind fun t => parse_time t
  let en := row.end_cell.bind fun t => parse_time t
  let st1 := if truthyStr stt && !truthyStr st.start? then { st with start? := stt } else st
  let st2 := if truthyStr en then { st1 with end? := en } else st1
  let st3 :=
    if row.from_cell.isSome && !truthyStr st2.loc_from then
      { st2 with loc_from := row.from_cell.map simplify }
    else st2
  let st4 :=
    if row.to_cell.isSome then { st3 with loc_to := row.to_cell.map simplify } else st3
  let st5 :=
    match row.type_cell with
    | some t => { st4 with labels := st4.labels ++ [simplify t] }
    | none => st4
  if row.train_cell.isSome && !truthyStr st5.train_no then
    match row.train_cell with
    | some t =>
      let tn := String.mk (keepTrainChars (simplify t).data)
      { st5 with train_no := if tn.data.isEmpty then none else some tn }
    | none => st5
  else st5

/-- Embedding of `parse_day`: read the header's duty type and labels, walk
the table rows, classify, and assemble the record.  `has_hours` is set
only inside the table branch, exactly as in the source, and `notes` is the
literal empty list of line 374. -/
def parse_day (date_str href : String) (inp : DayInput) : DiaTurno :=
  let tipo :=
    match inp.header with
    | some h => h.tipo_el.map simplify
    | none => none
  let headerLabels :=
    match inp.header with
    | some h => extract_texts h.label_strings
    | none => []
  let init : ParseState := ⟨none, none, none, none, headerLabels, none⟩
  let res :=
    match inp.table with
    | some rows => rows.foldl stepRow init
    | none => init
  let has_hours :=
    match inp.table with
    | some _ => truthyStr res.start? && truthyStr res.end?
    | none => false
  { date := date_str
    status := detect_status res.labels has_hours
    tipo := tipo
    start := res.start?
    endT := res.end?
    overnight := is_overnight res.start? res.end?
    location_from := res.loc_from
    location_to := res.loc_to
    train_number := res.train_no
    raw_frag_href := href
    notes := [] }

/-! ## SessionAcquirer: `login_ivu` (get_turnos.py lines 193-219)

The transport steps (cookie fetch, hidden-field harvesting, the POST) are
external; the embedded part is the acceptance decision on the post-login
response.  `Except.error` models the `raise SystemExit(1)` abort. -/

/-- Acceptance decision of `login_ivu` on the post-login response text and
final URL (lines 214-218): abort only when the lowercased text contains
neither "logout" nor "salir" nor "duty" and the final URL still ends in
the login path. -/
def login_check (text finalUrl : String) : Except Unit Unit :=
  if !containsSub (text.data.map lowChar) "logout".data &&
      !containsSub (text.data.map lowChar) "salir".data then
    if !containsSub (text.data.map lowChar) "duty".data &&
        startsWithL finalUrl.data.reverse "/_login".data.reverse then
      Except.error ()
    else Except.ok ()
  else Except.ok ()

/-! ## Month discovery (scrape_and_publish.py lines 223-228, 331-345) -/

/-- Shape test for the date group of `beginDate=(\d{4}-\d{2}-\d{2})`:
four digits, hyphen, two digits, hyphen, two digits; returns group and
remainder. -/
def dateShape (l : List Char) : Option (List Char × List Char) :=
  match l with
  | a :: b :: c :: d :: '-' :: e :: f :: '-' :: g :: h :: rest =>
    if isDig a && isDig b && isDig c && isDig d && isDig e && isDig f &&
        isDig g && isDig h then
      some ([a, b, c, d, '-', e, f, '-', g, h], rest)
    else none
  | _ => none

/-- Match of the full `beginDate=` pattern at the head of the list. -/
def matchBeginDate (l : List Char) : Option (List Char × List Char) :=
  if startsWithL l "beginDate=".data then dateShape (l.drop 10) else none

/-- Fuelled left-to-right non-overlapping scan of `re.findall` for the
`beginDate` pattern; the fuel is the subject length, which each step
strictly consumes. -/
def extractDatesAux : Nat → List Char → List (List Char)
  | 0, _ => []
  | _ + 1, [] => []
  | fuel + 1, c :: r =>
    match matchBeginDate (c :: r) with
    | some (d, rest) => d :: extractDatesAux fuel rest
    | none => extractDatesAux fuel r

/-- All `beginDate=YYYY-MM-DD` groups of the text, in match order. -/
def extractDatesRaw (l : List Char) : List (List Char) := extractDatesAux l.length l

/-- Lexicographic (code-point) strict order on strings, Python's `<`. -/
def strLtChars : List Char → List Char → Bool
  | [], [] => false
  | [], _ :: _ => true
  | _ :: _, [] => false
  | a :: x, b :: y => a.toNat < b.toNat || (a == b && strLtChars x y)

/-- Insertion into a sorted list, preferring the earlier element on ties. -/
def insertSorted (x : String) : List String → List String
  | [] => [x]
  | y :: r => if strLtChars y.data x.data then y :: insertSorted x r else x :: y :: r

/-- Python `sorted(set(_))` on strings: drop duplicates, sort ascending. -/
def pySortedSet (l : List String) : List String :=
  (l.eraseDups).foldr insertSorted []

/-- Embedding of `extract_dates_empid_from_any`'s date component:
`sorted(set(re.findall(r"beginDate=(\d{4}-\d{2}-\d{2})", html)))`. -/
def extract_dates (html : String) : List String :=
  pySortedSet ((extractDatesRaw html.data).map String.mk)

/-- Embedding of the month-discovery step of `scrape_and_publish.main`
(lines 336-345): read dates off the loaded page, on failure retry once via
the WeekView polyfill fragment, and abort (`RuntimeError`) when both are
empty.  The two arguments are the texts the two fetches return. -/
def resolveDates (fullHtml polyfillHtml : String) : Except String (List String) :=
  let dates1 := extract_dates fullHtml
  let dates := if dates1.isEmpty then extract_dates polyfillHtml else dates1
  if dates.isEmpty then Except.error "No se encontraron fechas en el mes"
  else Except.ok dates

/-! ## Orchestrator day loop (get_turnos.py lines 402-417) -/

/-- Diagnostic line the day loop logs when a day fails. -/
def diagMsg (d : String) : String := "[" ++ d ++ "] Error leyendo día"

/-- Embedding of the per-day loop of `get_turnos.main`: each `(date, href)`
pair is fetched (`fetch href`, abstracting `read_day_details` after its
transport retries; `none` models the exhausted-retries exception), parsed
with `parse_day`, and appended; a failing day only appends a diagnostic.
Returns the collected records and the diagnostic trail. -/
def month_day_loop (days : List (String × String))
    (fetch : String → Option DayInput) : List DiaTurno × List String :=
  days.foldl
    (fun acc p =>
      match fetch p.2 with
      | some inp => (acc.1 ++ [parse_day p.1 p.2 inp], acc.2)
      | none => (acc.1, acc.2 ++ [diagMsg p.1]))
    ([], [])

/-! ## Full-text fallback (scrape_and_publish.py lines 78-129)

`HORA_RE = r"([01]?\d|2[0-3]):[0-5]\d"` has one group around the hour, so
`re.findall` returns the hour components of the matches, not the full
tokens.  The three hour alternatives are mutually exclusive at any given
position, so the scan below needs no backtracking order. -/

/-- Hour-then-minute match of `HORA_RE` at the head of the list: returns
the group (the hour digits) and the remainder after the whole match. -/
def horaMatch (l : List Char) : Option (List Char × List Char) :=
  match l with
  | a :: b :: c :: d :: e :: rest =>
    if (((a == '0' || a == '1') && isDig b) ||
        (a == '2' && (b == '0' || b == '1' || b == '2' || b == '3'))) &&
        c == ':' && (48 ≤ d.toNat && d.toNat ≤ 53) && isDig e then
      some ([a, b], rest)
    else if isDig a && b == ':' && (48 ≤ c.toNat && c.toNat ≤ 53) && isDig d then
      some ([a], e :: rest)
    else none
  | [a, b, c, d] =>
    if isDig a && b == ':' && (48 ≤ c.toNat && c.toNat ≤ 53) && isDig d then
      some ([a], [])
    else none
  | _ => none

/-- Fuelled `re.findall(HORA_RE, text)` scan: left to right,
non-overlapping, collecting the hour groups. -/
def findHorasAux : Nat → List Char → List (List Char)
  | 0, _ => []
  | _ + 1, [] => []
  | fuel + 1, c :: r =>
    match horaMatch (c :: r) with
    | some (g, rest) => g :: findHorasAux fuel rest
    | none => findHorasAux fuel r

/-- Hour groups of all `HORA_RE` matches in the text. -/
def findHoras (l : List Char) : List (List Char) := findHorasAux l.length l

/-- Time fields of the single row `parse_day_fallback` builds. -/
structure FallbackTimes where
  hora_inicio : String
  hora_fin : String
deriving DecidableEq

/-- Embedding of the time extraction of `parse_day_fallback` (lines
91-96 and 122-129): no match yields no row (`[]` in the source); otherwise
one row whose `hora_inicio` is the first collected group and whose
`hora_fin` is the last.  The row's other fields (tipo, ubicación, tren)
come from independent scans the claims do not touch and are left out. -/
def parse_day_fallback_times (text : String) : Option FallbackTimes :=
  match findHoras text.data with
  | [] => none
  | h :: t => some ⟨String.mk h, String.mk ((h :: t).getLast (List.cons_ne_nil h t))⟩

/-! ## Specification-level predicates

These state occurrence, word-boundary and shape conditions as plain
existential decompositions, independent of the scanning functions above;
bridge lemmas connect the two. -/

/-- Occurrence of `p` as a contiguous substring of `l`. -/
def OccursIn (p l : List Char) : Prop := ∃ a b, l = a ++ p ++ b

/-- Whole-word occurrence of `w` in `l`: an occurrence whose neighbouring
characters (when they exist) are not word characters. -/
def HasWordP (l w : List Char) : Prop :=
  ∃ a b, l = a ++ w ++ b ∧
    (∀ c, a.getLast? = some c → isWordChar c = false) ∧
    (∀ c, b.head? = some c → isWordChar c = false)

/-- `l` ends with the suffix `suf`. -/
def EndsWithP (l suf : List Char) : Prop := ∃ a, l = a ++ suf

/-- Shape of a valid input to the time normaliser: optional surrounding
whitespace around `H:M` with one- or two-digit groups of values `h`, `m`. -/
def HHMMShape (l : List Char) (h m : Nat) : Prop :=
  ∃ w1 d1 d2 w2,
    l = w1 ++ d1 ++ ':' :: (d2 ++ w2) ∧
    (∀ c ∈ w1, isSpc c = true) ∧ (∀ c ∈ w2, isSpc c = true) ∧
    d1 ≠ [] ∧ d1.length ≤ 2 ∧ (∀ c ∈ d1, isDig c = true) ∧
    d2 ≠ [] ∧ d2.length ≤ 2 ∧ (∀ c ∈ d2, isDig c = true) ∧
    digitsVal d1 = h ∧ digitsVal d2 = m

/-- Hour alternatives of `HORA_RE`: one digit, `[01]` then a digit, or
`2[0-3]`. -/
def HourGroup (g : List Char) : Prop :=
  (∃ a, g = [a] ∧ isDig a = true) ∨
  (∃ a b, g = [a, b] ∧
    (((a = '0' ∨ a = '1') ∧ isDig b = true) ∨
      (a = '2' ∧ (b = '0' ∨ b = '1' ∨ b = '2' ∨ b = '3'))))

/-- Occurrence in `l` of a full `HORA_RE` time token whose hour component
is `g`: the hour group, a colon, a `[0-5]` minute digit, a second digit. -/
def TimeTokenOccurs (l g : List Char) : Prop :=
  ∃ pre m1 m2 post,
    l = pre ++ g ++ ':' :: m1 :: m2 :: post ∧ HourGroup g ∧
    48 ≤ m1.toNat ∧ m1.toNat ≤ 53 ∧ isDig m2 = true

/-- Shape of the date group of the `beginDate` pattern. -/
def DateGroup (d : List Char) : Prop :=
  ∃ y1 y2 y3 y4 n1 n2 k1 k2,
    d = [y1, y2, y3, y4, '-', n1, n2, '-', k1, k2] ∧
    isDig y1 = true ∧ isDig y2 = true ∧ isDig y3 = true ∧ isDig y4 = true ∧
    isDig n1 = true ∧ isDig n2 = true ∧ isDig k1 = true ∧ isDig k2 = true

/-- Occurrence of a `beginDate=YYYY-MM-DD` day identifier in `l`. -/
def HasDateRef (l : List Char) : Prop :=
  ∃ pre d post, l = pre ++ "beginDate=".data ++ d ++ post ∧ DateGroup d

/-! ## Bridge lemmas: scans versus decompositions -/

theorem startsWithL_iff (p : List Char) : ∀ l, startsWithL l p = true ↔ ∃ r, l = p ++ r := by
  induction p with
  | nil =>
    intro l
    constructor
    · intro _; exact ⟨l, rfl⟩
    · intro _; cases l <;> rfl
  | cons b p ih =>
    intro l
    cases l with
    | nil =>
      simp only [startsWithL]
      constructor
      · intro h; cases h
      · rintro ⟨r, h⟩; cases h
    | cons a l' =>
      simp only [startsWithL, Bool.and_eq_true, beq_iff_eq, ih l', List.cons_append]
      constructor
      · rintro ⟨rfl, r, rfl⟩; exact ⟨r, rfl⟩
      · rintro ⟨r, h⟩
        injection h with h1 h2
        exact ⟨h1, r, h2⟩

theorem containsSub_iff (p : List Char) : ∀ l, containsSub l p = true ↔ OccursIn p l := by
  intro l
  induction l with
  | nil =>
    simp only [containsSub, startsWithL_iff, OccursIn]
    constructor
    · rintro ⟨r, h⟩
      exact ⟨[], r, by simpa using h⟩
    · rintro ⟨a, b, h⟩
      have h' : a ++ (p ++ b) = [] := by rw [← List.append_assoc]; exact h.symm
      rcases List.append_eq_nil.mp h' with ⟨rfl, h2⟩
      rcases List.append_eq_nil.mp h2 with ⟨rfl, rfl⟩
      exact ⟨[], by simp⟩
  | cons c r ih =>
    simp only [containsSub, Bool.or_eq_true, startsWithL_iff, ih, OccursIn]
    constructor
    · rintro (⟨t, h⟩ | ⟨a, b, h⟩)
      · exact ⟨[], t, by simpa using h⟩
      · exact ⟨c :: a, b, by simp [h]⟩
    · rintro ⟨a, b, h⟩
      cases a with
      | nil => exact Or.inl ⟨b, by simpa using h⟩
      | cons x a' =>
        right
        injection h with h1 h2
        exact ⟨a', b, h2⟩

theorem occursIn_append_left (p l x : List Char) (h : OccursIn p l) : OccursIn p (x ++ l) := by
  rcases h with ⟨a, b, rfl⟩
  exact ⟨x ++ a, b, by simp⟩

theorem occursIn_append_right (p l x : List Char) (h : OccursIn p l) : OccursIn p (l ++ x) := by
  rcases h with ⟨a, b, rfl⟩
  exact ⟨a, b ++ x, by simp⟩

theorem occursIn_trans (p q l : List Char) (h1 : OccursIn p q) (h2 : OccursIn q l) :
    OccursIn p l := by
  rcases h1 with ⟨a, b, rfl⟩
  rcases h2 with ⟨x, y, rfl⟩
  exact ⟨x ++ a, b ++ y, by simp⟩

theorem occursIn_pyJoin (sep : String) (texts : List String) (t : String) (ht : t ∈ texts) :
    OccursIn t.data (pyJoin sep texts).data := by
  induction texts with
  | nil => cases ht
  | cons x rest ih =>
    cases rest with
    | nil =>
      rcases List.mem_singleton.mp ht with rfl
      exact ⟨[], [], by simp [pyJoin]⟩
    | cons y r2 =>
      rcases List.mem_cons.mp ht with rfl | hmem
      · show OccursIn t.data (t ++ sep ++ pyJoin sep (y :: r2)).data
        rw [String.data_append, String.data_append]
        rw [List.append_assoc]
        exact ⟨[], sep.data ++ (pyJoin sep (y :: r2)).data, by simp⟩
      · have hin := ih hmem
        show OccursIn t.data (x ++ sep ++ pyJoin sep (y :: r2)).data
        rw [String.data_append, String.data_append]
        exact occursIn_append_left _ _ _ hin

theorem prevOkB_iff (prev : Option Char) : prevOkB prev = true ↔ PrevOk prev := by
  cases prev with
  | none => simp [prevOkB, PrevOk]
  | some c => simp [prevOkB, PrevOk]

theorem headOkB_iff (b : List Char) :
    headOkB b = true ↔ ∀ c, b.head? = some c → isWordChar c = false := by
  cases b with
  | nil => simp [headOkB]
  | cons d r => simp [headOkB]

theorem drop_len_append (a b : List Char) : (a ++ b).drop a.length = b := by
  induction a with
  | nil => rfl
  | cons x a ih =>
    rw [List.cons_append, List.length_cons, List.drop_succ_cons]
    exact ih

theorem getLast?_append_singleton (a : List Char) (c : Char) :
    (a ++ [c]).getLast? = some c := by
  induction a with
  | nil => rfl
  | cons x a ih =>
    rw [List.cons_append, List.getLast?_cons]
    simp [ih]

theorem eq_nil_or_append_singleton (l : List Char) : l = [] ∨ ∃ a c, l = a ++ [c] := by
  induction l with
  | nil => exact Or.inl rfl
  | cons x r ih =>
    rcases ih with rfl | ⟨a, c, rfl⟩
    · exact Or.inr ⟨[], x, rfl⟩
    · exact Or.inr ⟨x :: a, c, rfl⟩

theorem hasWordAux_iff (w : List Char) (hw : w ≠ []) :
    ∀ (l : List Char) (prev : Option Char),
      hasWordAux w prev l = true ↔
        ∃ a b, l = a ++ w ++ b ∧
          ((a = [] ∧ PrevOk prev) ∨ ∃ c a', a = a' ++ [c] ∧ isWordChar c = false) ∧
          (∀ c, b.head? = some c → isWordChar c = false) := by
  intro l
  induction l with
  | nil =>
    intro prev
    rcases w with _ | ⟨x, w'⟩
    · exact absurd rfl hw
    constructor
    · intro h
      simp [hasWordAux, startsWithL] at h
    · rintro ⟨a, b, h, -, -⟩
      have hlen := congrArg List.length h
      simp [List.length_append] at hlen
      omega
  | cons c r ih =>
    intro prev
    simp only [hasWordAux, Bool.or_eq_true, Bool.and_eq_true]
    constructor
    · rintro (⟨⟨hprev, hsw⟩, hafter⟩ | hrec)
      · rcases (startsWithL_iff w (c :: r)).mp hsw with ⟨rest, heq⟩
        refine ⟨[], rest, by simp [heq], Or.inl ⟨rfl, (prevOkB_iff prev).mp hprev⟩, ?_⟩
        rw [heq, drop_len_append] at hafter
        exact (headOkB_iff rest).mp hafter
      · rcases (ih (some c)).mp hrec with ⟨a, b, heq, hcond, hhead⟩
        refine ⟨c :: a, b, by rw [heq]; rfl, ?_, hhead⟩
        rcases hcond with ⟨rfl, hprev⟩ | ⟨c0, a', rfl, hc0⟩
        · exact Or.inr ⟨c, [], by simp, hprev c rfl⟩
        · exact Or.inr ⟨c0, c :: a', by simp, hc0⟩
    · rintro ⟨a, b, heq, hcond, hhead⟩
      cases a with
      | nil =>
        rcases hcond with ⟨-, hprev⟩ | ⟨c0, a', ha, -⟩
        · left
          have heq' : c :: r = w ++ b := by simpa using heq
          refine ⟨⟨(prevOkB_iff prev).mpr hprev, (startsWithL_iff w (c :: r)).mpr ⟨b, heq'⟩⟩, ?_⟩
          rw [heq', drop_len_append]
          exact (headOkB_iff b).mpr hhead
        · exact absurd (congrArg List.length ha) (by simp [List.length_append])
      | cons x a0 =>
        right
        have hc : c = x ∧ r = a0 ++ w ++ b := by
          rw [List.cons_append, List.cons_append] at heq
          exact ⟨by injection heq, by injection heq⟩
        rcases hc with ⟨rfl, rfl⟩
        apply (ih (some c)).mpr
        refine ⟨a0, b, rfl, ?_, hhead⟩
        rcases hcond with ⟨ha, -⟩ | ⟨c0, a', ha, hc0⟩
        · cases ha
        · cases a' with
          | nil =>
            have h1 : c = c0 ∧ a0 = [] := by
              simp only [List.nil_append] at ha
              exact ⟨by injection ha, by injection ha⟩
            rcases h1 with ⟨rfl, rfl⟩
            exact Or.inl ⟨rfl, fun c' hc' => by cases hc'; exact hc0⟩
          | cons y a'' =>
            have h1 : c = y ∧ a0 = a'' ++ [c0] := by
              rw [List.cons_append] at ha
              exact ⟨by injection ha, by injection ha⟩
            rcases h1 with ⟨rfl, rfl⟩
            exact Or.inr ⟨c0, a'', rfl, hc0⟩

theorem hasWord_iff (l w : List Char) (hw : w ≠ []) :
    hasWord l w = true ↔ HasWordP l w := by
  rw [hasWord, hasWordAux_iff w hw l none]
  constructor
  · rintro ⟨a, b, heq, hcond, hhead⟩
    refine ⟨a, b, heq, ?_, hhead⟩
    rcases hcond with ⟨rfl, -⟩ | ⟨c0, a', rfl, hc0⟩
    · intro c hc; cases hc
    · intro c hc
      rw [getLast?_append_singleton] at hc
      cases hc
      exact hc0
  · rintro ⟨a, b, heq, hlast, hhead⟩
    refine ⟨a, b, heq, ?_, hhead⟩
    rcases eq_nil_or_append_singleton a with rfl | ⟨a', c0, rfl⟩
    · exact Or.inl ⟨rfl, fun c hc => by cases hc⟩
    · exact Or.inr ⟨c0, a', rfl, hlast c0 (getLast?_append_singleton a' c0)⟩

/-! ## Character-class facts and list-scan helpers -/

theorem isDig_not_spc (c : Char) (h : isDig c = true) : isSpc c = false := by
  simp only [isDig, Bool.and_eq_true, decide_eq_true_eq] at h
  simp only [isSpc, Bool.or_eq_false_iff, decide_eq_false_iff_not]
  omega

theorem isSpc_not_dig (c : Char) (h : isSpc c = true) : isDig c = false := by
  simp only [isSpc, Bool.or_eq_true, decide_eq_true_eq] at h
  simp only [isDig, Bool.and_eq_false_iff, decide_eq_false_iff_not]
  omega

theorem isDig_ne_colon (c : Char) (h : isDig c = true) : c ≠ ':' := by
  intro hc
  subst hc
  exact absurd h (by decide)

theorem takeWhile_all (p : Char → Bool) (l : List Char) (h : ∀ c ∈ l, p c = true) :
    l.takeWhile p = l := by
  induction l with
  | nil => rfl
  | cons c r ih =>
    rw [List.takeWhile_cons, h c (by simp)]
    simp [ih fun c' hc' => h c' (by simp [hc'])]

theorem dropWhile_nil_all (p : Char → Bool) (l : List Char) (h : ∀ c ∈ l, p c = true) :
    l.dropWhile p = [] := by
  induction l with
  | nil => rfl
  | cons c r ih =>
    rw [List.dropWhile_cons, h c (by simp)]
    simp [ih fun c' hc' => h c' (by simp [hc'])]

theorem dropWhile_eq_self (p : Char → Bool) (l : List Char) (h : ∀ c ∈ l, p c = false) :
    l.dropWhile p = l := by
  cases l with
  | nil => rfl
  | cons c r =>
    rw [List.dropWhile_cons, h c (by simp)]
    simp

theorem takeWhile_append_stop (p : Char → Bool) (a : List Char) (b0 : Char) (b : List Char)
    (ha : ∀ c ∈ a, p c = true) (hb : p b0 = false) : (a ++ b0 :: b).takeWhile p = a := by
  induction a with
  | nil => simp [List.takeWhile_cons, hb]
  | cons c r ih =>
    rw [List.cons_append, List.takeWhile_cons, ha c (by simp)]
    simp [ih fun c' hc' => ha c' (by simp [hc'])]

theorem dropWhile_append_stop (p : Char → Bool) (a : List Char) (b0 : Char) (b : List Char)
    (ha : ∀ c ∈ a, p c = true) (hb : p b0 = false) : (a ++ b0 :: b).dropWhile p = b0 :: b := by
  induction a with
  | nil => simp [List.dropWhile_cons, hb]
  | cons c r ih =>
    rw [List.cons_append, List.dropWhile_cons, ha c (by simp)]
    simp [ih fun c' hc' => ha c' (by simp [hc'])]

theorem mem_takeWhile (p : Char → Bool) (l : List Char) :
    ∀ c ∈ l.takeWhile p, p c = true := by
  induction l with
  | nil => intro c hc; cases hc
  | cons x r ih =>
    intro c hc
    rw [List.takeWhile_cons] at hc
    split at hc
    · next hx =>
      rcases List.mem_cons.mp hc with rfl | hc'
      · exact hx
      · exact ih c hc'
    · cases hc

theorem pyStrip_eq_self (l : List Char) (h : ∀ c ∈ l, isSpc c = false) : pyStrip l = l := by
  unfold pyStrip
  rw [dropWhile_eq_self isSpc l h]
  rw [dropWhile_eq_self isSpc l.reverse fun c hc => h c (List.mem_reverse.mp hc)]
  exact List.reverse_reverse l

/-! ## Digit rendering and parsing round trips -/

theorem charVal_digitCh : ∀ n, n < 10 → charVal (digitCh n) = n := by decide

theorem isDig_digitCh : ∀ n, n < 10 → isDig (digitCh n) = true := by decide

theorem fmt2chars_all_dig (n : Nat) (h : n < 100) : ∀ c ∈ fmt2chars n, isDig c = true := by
  intro c hc
  unfold fmt2chars at hc
  split at hc
  · simp only [List.mem_cons, List.mem_singleton] at hc
    rcases hc with rfl | rfl | hc
    · decide
    · exact isDig_digitCh n (by omega)
    · cases hc
  · simp only [List.mem_cons, List.mem_singleton] at hc
    rcases hc with rfl | rfl | hc
    · exact isDig_digitCh (n / 10) (by omega)
    · exact isDig_digitCh (n % 10) (Nat.mod_lt _ (by norm_num))
    · cases hc

theorem digitsVal_fmt2 (n : Nat) (h : n < 100) : digitsVal (fmt2chars n) = n := by
  unfold fmt2chars digitsVal
  split
  · simp only [List.foldl_cons, List.foldl_nil]
    rw [show charVal '0' = 0 from rfl, charVal_digitCh n (by omega)]
    omega
  · simp only [List.foldl_cons, List.foldl_nil]
    rw [charVal_digitCh (n / 10) (by omega), charVal_digitCh (n % 10) (Nat.mod_lt _ (by norm_num))]
    omega

theorem fmt2chars_len (n : Nat) : (fmt2chars n).length = 2 := by
  unfold fmt2chars
  split <;> rfl

theorem splitColon_no_colon (l : List Char) (h : ∀ c ∈ l, c ≠ ':') : splitColon l = [l] := by
  induction l with
  | nil => rfl
  | cons c r ih =>
    rw [splitColon]
    have hc : (c == ':') = false := by
      simp only [beq_eq_false_iff_ne, ne_eq]
      exact h c (by simp)
    rw [hc]
    simp [ih fun c' hc' => h c' (by simp [hc'])]

theorem splitColon_append (a b : List Char) (ha : ∀ c ∈ a, c ≠ ':') :
    splitColon (a ++ ':' :: b) = a :: splitColon b := by
  induction a with
  | nil => simp [splitColon]
  | cons c r ih =>
    rw [List.cons_append, splitColon]
    have hc : (c == ':') = false := by
      simp only [beq_eq_false_iff_ne, ne_eq]
      exact ha c (by simp)
    rw [hc]
    simp [ih fun c' hc' => ha c' (by simp [hc'])]

theorem pyIntChars_fmt2 (n : Nat) (h : n < 100) :
    pyIntChars (fmt2chars n) = some (Int.ofNat n) := by
  have hd := fmt2chars_all_dig n h
  have hs : pyStrip (fmt2chars n) = fmt2chars n :=
    pyStrip_eq_self _ fun c hc => isDig_not_spc c (hd c hc)
  unfold pyIntChars
  simp only [hs]
  cases hfmt : fmt2chars n with
  | nil => exact absurd (hfmt ▸ fmt2chars_len n) (by simp)
  | cons c r =>
    have hcd : isDig c = true := hd c (by rw [hfmt]; simp)
    have hminus : ¬((c :: r).head? = some '-') := by
      simp only [List.head?, Option.some.injEq]
      intro hc
      subst hc
      exact absurd hcd (by decide)
    have hplus : ¬((c :: r).head? = some '+') := by
      simp only [List.head?, Option.some.injEq]
      intro hc
      subst hc
      exact absurd hcd (by decide)
    have hall : (c :: r).all isDig = true := by
      rw [List.all_eq_true]
      intro c' hc'
      exact hd c' (by rw [hfmt]; exact hc')
    rw [if_neg (by simp), if_neg hminus, if_neg hplus, if_pos hall]
    rw [← hfmt, digitsVal_fmt2 n h]

theorem canon_data (h m : Nat) : (canonHHMM h m).data = fmt2chars h ++ ':' :: fmt2chars m := rfl

theorem hhmmToMinutes_canon (h m : Nat) (hh : h < 24) (hm : m < 60) :
    hhmmToMinutes (canonHHMM h m) = some ((h : Int) * 60 + (m : Int)) := by
  unfold hhmmToMinutes
  rw [canon_data]
  rw [splitColon_append _ _ fun c hc => isDig_ne_colon c (fmt2chars_all_dig h (by omega) c hc)]
  rw [splitColon_no_colon _ fun c hc => isDig_ne_colon c (fmt2chars_all_dig m (by omega) c hc)]
  simp only
  rw [pyIntChars_fmt2 h (by omega), pyIntChars_fmt2 m (by omega)]
  rfl

theorem truthy_canon (h m : Nat) : truthyStr (some (canonHHMM h m)) = true := by
  simp only [truthyStr, canonHHMM, Bool.not_eq_true']
  cases hfmt : fmt2chars h with
  | nil => exact absurd (hfmt ▸ fmt2chars_len h) (by simp)
  | cons c r => simp

/-! ## Characterisation of the anchored time pattern -/

theorem matchHHMM_some_shape (l : List Char) (h m : Nat)
    (hm : matchHHMM l = some (h, m)) : HHMMShape l h m := by
  simp only [matchHHMM] at hm
  split at hm
  · cases hm
  · next hc1 =>
    split at hm
    · next r2 heq =>
      split at hm
      · cases hm
      · next hc2 =>
        split at hm
        · next hc3 =>
          injection hm with hm'
          injection hm' with hmh hmm2
          simp only [Bool.or_eq_true, decide_eq_true_eq, not_or] at hc1 hc2
          refine ⟨l.takeWhile isSpc, (l.dropWhile isSpc).takeWhile isDig,
            r2.takeWhile isDig, r2.dropWhile isDig, ?_, ?_, ?_, ?_, ?_, ?_, ?_, ?_, ?_, ?_, ?_⟩
          · rw [List.takeWhile_append_dropWhile]
            rw [List.append_assoc, ← heq, List.takeWhile_append_dropWhile,
              List.takeWhile_append_dropWhile]
          · exact mem_takeWhile isSpc l
          · intro c hc
            exact List.all_eq_true.mp hc3 c hc
          · intro hnil
            exact hc1.1 (by rw [hnil]; rfl)
          · have := hc1.2
            omega
          · exact mem_takeWhile isDig _
          · intro hnil
            exact hc2.1 (by rw [hnil]; rfl)
          · have := hc2.2
            omega
          · exact mem_takeWhile isDig _
          · exact hmh
          · exact hmm2
        · cases hm
    · cases hm

theorem matchHHMM_of_shape (l : List Char) (h m : Nat) (hs : HHMMShape l h m) :
    matchHHMM l = some (h, m) := by
  rcases hs with ⟨w1, d1, d2, w2, heq, hw1, hw2, hd1ne, hd1len, hd1dig, hd2ne, hd2len,
    hd2dig, hv1, hv2⟩
  rcases d1 with _ | ⟨c0, d1'⟩
  · exact absurd rfl hd1ne
  have heq' : l = w1 ++ c0 :: (d1' ++ ':' :: (d2 ++ w2)) := by
    rw [heq, List.append_assoc]
    rfl
  have e1 : l.dropWhile isSpc = c0 :: (d1' ++ ':' :: (d2 ++ w2)) := by
    rw [heq']
    exact dropWhile_append_stop isSpc w1 c0 _ hw1 (isDig_not_spc c0 (hd1dig c0 (by simp)))
  have e2 : (c0 :: (d1' ++ ':' :: (d2 ++ w2))).takeWhile isDig = c0 :: d1' := by
    have := takeWhile_append_stop isDig (c0 :: d1') ':' (d2 ++ w2) hd1dig (by decide)
    rwa [List.cons_append] at this
  have e3 : (c0 :: (d1' ++ ':' :: (d2 ++ w2))).dropWhile isDig = ':' :: (d2 ++ w2) := by
    have := dropWhile_append_stop isDig (c0 :: d1') ':' (d2 ++ w2) hd1dig (by decide)
    rwa [List.cons_append] at this
  have e4 : (d2 ++ w2).takeWhile isDig = d2 := by
    cases w2 with
    | nil => rw [List.append_nil]; exact takeWhile_all _ _ hd2dig
    | cons x w2' =>
      exact takeWhile_append_stop _ _ _ _ hd2dig (isSpc_not_dig x (hw2 x (by simp)))
  have e5 : (d2 ++ w2).dropWhile isDig = w2 := by
    cases w2 with
    | nil => rw [List.append_nil]; exact dropWhile_nil_all _ _ hd2dig
    | cons x w2' =>
      exact dropWhile_append_stop _ _ _ _ hd2dig (isSpc_not_dig x (hw2 x (by simp)))
  have hd1len' : d1'.length + 1 ≤ 2 := by simpa using hd1len
  simp only [matchHHMM, e1, e2, e3, e4, e5]
  rw [if_neg (by simp only [Bool.or_eq_true, decide_eq_true_eq, List.length_cons]; omega)]
  rw [if_neg (by
    simp only [Bool.or_eq_true, decide_eq_true_eq, not_or]
    exact ⟨fun hlen => hd2ne (List.length_eq_zero.mp hlen), by omega⟩)]
  rw [if_pos (List.all_eq_true.mpr hw2), hv1, hv2]

/-- C6: the time normaliser returns a value exactly on strings of the
`H:M` shape (one- or two-digit groups, optional surrounding whitespace)
whose hour is below 24 and minute below 60, and that value is the
zero-padded canonical `HH:MM`; every other input yields `none`. -/
theorem norm_hhmm_iff (s r : String) :
    norm_hhmm s = some r ↔
      ∃ h m, HHMMShape s.data h m ∧ h < 24 ∧ m < 60 ∧ r = canonHHMM h m := by
  constructor
  · intro hn
    unfold norm_hhmm at hn
    split at hn
    · cases hn
    · split at hn
      · next h0 m0 heq =>
        split at hn
        · next hrange =>
          injection hn with hn'
          rw [Bool.and_eq_true, decide_eq_true_eq, decide_eq_true_eq] at hrange
          exact ⟨h0, m0, matchHHMM_some_shape s.data h0 m0 heq, hrange.1, hrange.2, hn'.symm⟩
        · cases hn
      · cases hn
  · rintro ⟨h, m, hs, hh, hm, rfl⟩
    have hmm := matchHHMM_of_shape s.data h m hs
    have hne : s.data ≠ [] := by
      rcases hs with ⟨w1, d1, d2, w2, heq, -⟩
      rw [heq]
      simp
    unfold norm_hhmm
    rw [if_neg (by simpa using hne), hmm]
    simp [hh, hm]

/-! ## StatusClassifier rule lemmas -/

theorem detect_mem (texts : List String) (hh : Bool) :
    detect_status texts hh ∈ ["LD", "DESCANSO", "I", "SERVICIO", "LIBRE"] := by
  unfold detect_status
  split_ifs <;> simp

theorem detect_LD (texts : List String) (hh : Bool)
    (h : OccursIn ['L', 'D'] (joinedOf texts).data) : detect_status texts hh = "LD" := by
  unfold detect_status
  rw [if_pos ((containsSub_iff ['L', 'D'] (joinedOf texts).data).mpr h)]

theorem detect_DESCANSO (texts : List String) (hh : Bool)
    (h1 : ¬ OccursIn ['L', 'D'] (joinedOf texts).data)
    (h2 : HasWordP (joinedOf texts).data ['D', 'E', 'S', 'C', 'A', 'N', 'S', 'O']) :
    detect_status texts hh = "DESCANSO" := by
  unfold detect_status
  rw [if_neg fun ht => h1 ((containsSub_iff _ _).mp ht)]
  rw [if_pos ((hasWord_iff _ _ (by decide)).mpr h2)]

theorem detect_servicio (texts : List String)
    (h1 : ¬ OccursIn ['L', 'D'] (joinedOf texts).data)
    (h2 : ¬ HasWordP (joinedOf texts).data ['D', 'E', 'S', 'C', 'A', 'N', 'S', 'O']) :
    detect_status texts true = "SERVICIO" := by
  unfold detect_status
  rw [if_neg fun ht => h1 ((containsSub_iff _ _).mp ht)]
  rw [if_neg fun ht => h2 ((hasWord_iff _ _ (by decide)).mp ht)]
  simp

theorem detect_I (texts : List String)
    (h1 : ¬ OccursIn ['L', 'D'] (joinedOf texts).data)
    (h2 : ¬ HasWordP (joinedOf texts).data ['D', 'E', 'S', 'C', 'A', 'N', 'S', 'O'])
    (h3 : HasWordP (joinedOf texts).data ['I']) :
    detect_status texts false = "I" := by
  unfold detect_status
  rw [if_neg fun ht => h1 ((containsSub_iff _ _).mp ht)]
  rw [if_neg fun ht => h2 ((hasWord_iff _ _ (by decide)).mp ht)]
  rw [if_pos (show (hasWord (joinedOf texts).data ['I'] && !false) = true by
    rw [Bool.and_eq_true]
    exact ⟨(hasWord_iff _ _ (by decide)).mpr h3, rfl⟩)]

theorem detect_LIBRE (texts : List String)
    (h1 : ¬ OccursIn ['L', 'D'] (joinedOf texts).data)
    (h2 : ¬ HasWordP (joinedOf texts).data ['D', 'E', 'S', 'C', 'A', 'N', 'S', 'O'])
    (h3 : ¬ HasWordP (joinedOf texts).data ['I']) :
    detect_status texts false = "LIBRE" := by
  unfold detect_status
  rw [if_neg fun ht => h1 ((containsSub_iff _ _).mp ht)]
  rw [if_neg fun ht => h2 ((hasWord_iff _ _ (by decide)).mp ht)]
  rw [if_neg (by
    intro ht
    rw [Bool.and_eq_true] at ht
    exact h3 ((hasWord_iff _ _ (by decide)).mp ht.1))]
  simp

theorem detect_LD_of_label (texts : List String) (hh : Bool) (t : String) (ht : t ∈ texts)
    (hld : OccursIn ['L', 'D'] (pyUpper t).data) : detect_status texts hh = "LD" := by
  apply detect_LD
  exact occursIn_trans _ _ _ hld
    (occursIn_pyJoin " " (texts.map pyUpper) (pyUpper t) (List.mem_map_of_mem pyUpper ht))

/-! ## Full-text fallback scan soundness -/

theorem timeTokenOccurs_prepend (x l g : List Char) (h : TimeTokenOccurs l g) :
    TimeTokenOccurs (x ++ l) g := by
  rcases h with ⟨pre, m1, m2, post, rfl, hg, h1, h2, h3⟩
  exact ⟨x ++ pre, m1, m2, post, by simp, hg, h1, h2, h3⟩

theorem horaMatch_sound (l g rest : List Char) (hm : horaMatch l = some (g, rest)) :
    ∃ m1 m2, l = g ++ ':' :: m1 :: m2 :: rest ∧ HourGroup g ∧
      48 ≤ m1.toNat ∧ m1.toNat ≤ 53 ∧ isDig m2 = true := by
  unfold horaMatch at hm
  split at hm
  · next a b c d e rest0 =>
    split at hm
    · next hc =>
      injection hm with hm'
      injection hm' with hg hrest
      subst hg hrest
      simp only [Bool.and_eq_true, Bool.or_eq_true, beq_iff_eq, decide_eq_true_eq] at hc
      rcases hc with ⟨⟨⟨hhour, rfl⟩, hd⟩, he⟩
      refine ⟨d, e, rfl, ?_, hd.1, hd.2, he⟩
      rcases hhour with ⟨ha01, hb⟩ | ⟨rfl, hb⟩
      · exact Or.inr ⟨a, b, rfl, Or.inl ⟨ha01, hb⟩⟩
      · exact Or.inr ⟨'2', b, rfl, Or.inr ⟨rfl, by tauto⟩⟩
    · split at hm
      · next hc =>
        injection hm with hm'
        injection hm' with hg hrest
        subst hg hrest
        simp only [Bool.and_eq_true, beq_iff_eq, decide_eq_true_eq] at hc
        rcases hc with ⟨⟨⟨ha, rfl⟩, hc'⟩, hd⟩
        exact ⟨c, d, rfl, Or.inl ⟨a, rfl, ha⟩, hc'.1, hc'.2, hd⟩
      · cases hm
  · next a b c d =>
    split at hm
    · next hc =>
      injection hm with hm'
      injection hm' with hg hrest
      subst hg hrest
      simp only [Bool.and_eq_true, beq_iff_eq, decide_eq_true_eq] at hc
      rcases hc with ⟨⟨⟨ha, rfl⟩, hc'⟩, hd⟩
      exact ⟨c, d, rfl, Or.inl ⟨a, rfl, ha⟩, hc'.1, hc'.2, hd⟩
    · cases hm
  · cases hm

theorem findHorasAux_sound :
    ∀ (fuel : Nat) (l g : List Char), g ∈ findHorasAux fuel l → TimeTokenOccurs l g := by
  intro fuel
  induction fuel with
  | zero => intro l g hg; cases hg
  | succ fuel ih =>
    intro l g hg
    cases l with
    | nil => cases hg
    | cons c r =>
      rw [findHorasAux] at hg
      cases hm : horaMatch (c :: r) with
      | some p =>
        rw [hm] at hg
        rcases horaMatch_sound (c :: r) p.1 p.2 (by rw [hm]) with ⟨m1, m2, hl, hgrp, h1, h2, h3⟩
        rcases List.mem_cons.mp hg with rfl | hg'
        · exact ⟨[], m1, m2, p.2, by simpa using hl, hgrp, h1, h2, h3⟩
        · have hrec := ih p.2 g hg'
          rw [hl]
          have h4 : p.1 ++ ':' :: m1 :: m2 :: p.2 = (p.1 ++ [':', m1, m2]) ++ p.2 := by simp
          rw [h4]
          exact timeTokenOccurs_prepend _ _ _ hrec
      | none =>
        rw [hm] at hg
        have := ih r g hg
        exact timeTokenOccurs_prepend [c] r g this

theorem findHoras_sound (l g : List Char) (h : g ∈ findHoras l) : TimeTokenOccurs l g :=
  findHorasAux_sound l.length l g h

/-! ## Month-discovery scan completeness -/

theorem dateShape_sound (l dd rr : List Char) (hds : dateShape l = some (dd, rr)) :
    l = dd ++ rr ∧ DateGroup dd := by
  unfold dateShape at hds
  split at hds
  · next y1 y2 y3 y4 n1 n2 k1 k2 rest0 =>
    split at hds
    · next hc =>
      injection hds with hds'
      injection hds' with hd hr
      subst hd hr
      simp only [Bool.and_eq_true] at hc
      exact ⟨rfl, ⟨y1, y2, y3, y4, n1, n2, k1, k2, rfl,
        hc.1.1.1.1.1.1.1, hc.1.1.1.1.1.1.2, hc.1.1.1.1.1.2, hc.1.1.1.1.2,
        hc.1.1.1.2, hc.1.1.2, hc.1.2, hc.2⟩⟩
    · cases hds
  · cases hds

theorem matchBeginDate_sound (l dd rr : List Char)
    (h : matchBeginDate l = some (dd, rr)) :
    l = "beginDate=".data ++ dd ++ rr ∧ DateGroup dd := by
  unfold matchBeginDate at h
  split at h
  · next hsw =>
    rcases (startsWithL_iff "beginDate=".data l).mp hsw with ⟨tail, hl⟩
    have hdrop : l.drop 10 = tail := by
      rw [hl]
      exact drop_len_append "beginDate=".data tail
    rw [hdrop] at h
    rcases dateShape_sound tail dd rr h with ⟨htail, hdg⟩
    exact ⟨by rw [hl, htail, List.append_assoc], hdg⟩
  · cases h

theorem hasDateRef_cons (c : Char) (r : List Char) (h : HasDateRef r) : HasDateRef (c :: r) := by
  rcases h with ⟨pre, dd, post, rfl, hdg⟩
  exact ⟨c :: pre, dd, post, rfl, hdg⟩

theorem extractDatesAux_nil :
    ∀ (fuel : Nat) (l : List Char), ¬ HasDateRef l → extractDatesAux fuel l = [] := by
  intro fuel
  induction fuel with
  | zero => intro l _; rfl
  | succ fuel ih =>
    intro l hnd
    cases l with
    | nil => rfl
    | cons c r =>
      rw [extractDatesAux]
      cases hm : matchBeginDate (c :: r) with
      | some p =>
        rcases matchBeginDate_sound (c :: r) p.1 p.2 (by rw [hm]) with ⟨hl, hdg⟩
        exact absurd ⟨[], p.1, p.2, by simpa using hl, hdg⟩ hnd
      | none =>
        exact ih r fun hr => hnd (hasDateRef_cons c r hr)

theorem extract_dates_nil (html : String) (h : ¬ HasDateRef html.data) :
    extract_dates html = [] := by
  unfold extract_dates extractDatesRaw
  rw [extractDatesAux_nil html.data.length html.data h]
  rfl

/-! ## Orchestrator day-loop characterisation -/

theorem parse_day_date (a b : String) (inp : DayInput) : (parse_day a b inp).date = a := rfl

theorem month_day_loop_eq (days : List (String × String)) (fetch : String → Option DayInput) :
    month_day_loop days fetch =
      (days.filterMap fun p => (fetch p.2).map fun inp => parse_day p.1 p.2 inp,
       (days.filter fun p => (fetch p.2).isNone).map fun p => diagMsg p.1) := by
  have aux : ∀ (ds : List (String × String)) (acc : List DiaTurno × List String),
      ds.foldl (fun acc p =>
        match fetch p.2 with
        | some inp => (acc.1 ++ [parse_day p.1 p.2 inp], acc.2)
        | none => (acc.1, acc.2 ++ [diagMsg p.1])) acc =
      (acc.1 ++ ds.filterMap (fun p => (fetch p.2).map fun inp => parse_day p.1 p.2 inp),
       acc.2 ++ (ds.filter fun p => (fetch p.2).isNone).map fun p => diagMsg p.1) := by
    intro ds
    induction ds with
    | nil => intro acc; simp
    | cons p ds ih =>
      intro acc
      rw [List.foldl_cons]
      cases hf : fetch p.2 with
      | some inp =>
        rw [List.filterMap_cons, List.filter_cons]
        simp only [hf, Option.map_some', Option.isNone_some, Bool.false_eq_true, if_false]
        rw [ih]
        simp
      | none =>
        rw [List.filterMap_cons, List.filter_cons]
        simp only [hf, Option.map_none', Option.isNone_none, if_true]
        rw [ih]
        simp
  unfold month_day_loop
  rw [aux days ([], [])]
  simp

theorem dates_of_loop (days : List (String × String)) (fetch : String → Option DayInput) :
    (days.filterMap fun p => (fetch p.2).map fun inp => parse_day p.1 p.2 inp).map
        DiaTurno.date =
      (days.filter fun p => (fetch p.2).isSome).map Prod.fst := by
  induction days with
  | nil => rfl
  | cons p ds ih =>
    rw [List.filterMap_cons, List.filter_cons]
    cases hf : fetch p.2 with
    | some inp =>
      simp only [Option.map_some', Option.isSome_some, if_true, List.map_cons]
      rw [ih, parse_day_date]
    | none =>
      simp only [Option.map_none', Option.isSome_none, Bool.false_eq_true, if_false]
      exact ih

theorem fst_not_mem_filter (days : List (String × String)) (q : String × String → Bool)
    (p : String × String) (hp : p ∈ days) (hq : q p = false)
    (hn : (days.map Prod.fst).Nodup) : p.1 ∉ (days.filter q).map Prod.fst := by
  induction days with
  | nil => cases hp
  | cons d ds ih =>
    rw [List.map_cons, List.nodup_cons] at hn
    rcases List.mem_cons.mp hp with rfl | hp'
    · rw [List.filter_cons, hq]
      intro hmem
      rcases List.mem_map.mp hmem with ⟨x, hxmem, hx1⟩
      exact hn.1 (hx1 ▸ List.mem_map_of_mem Prod.fst (List.mem_of_mem_filter hxmem))
    · rw [List.filter_cons]
      by_cases hd : q d = true
      · rw [if_pos hd, List.map_cons]
        intro hmem
        rcases List.mem_cons.mp hmem with heq | hmem'
        · exact hn.1 (heq ▸ List.mem_map_of_mem Prod.fst hp')
        · exact ih hp' hn.2 hmem'
      · rw [if_neg hd]
        exact ih hp' hn.2

/-! ## Login bridge -/

theorem endsWith_iff (s suf : List Char) :
    startsWithL s.reverse suf.reverse = true ↔ EndsWithP s suf := by
  rw [startsWithL_iff]
  constructor
  · rintro ⟨r, hr⟩
    refine ⟨r.reverse, ?_⟩
    have h2 := congrArg List.reverse hr
    rwa [List.reverse_reverse, List.reverse_append, List.reverse_reverse] at h2
  · rintro ⟨a, rfl⟩
    exact ⟨a.reverse, by rw [List.reverse_append]⟩

/-- C4 (amended): the session acquirer does not abort on every response
lacking the positive marker; it aborts exactly when the lowercased
response text contains none of "logout", "salir" and "duty" AND the final
URL still ends in the login path "/_login".  (In particular a marker-free
response mentioning "duty", or one reached on a URL away from the login
path, is accepted.) -/
theorem login_check_error_iff (text url : String) :
    login_check text url = Except.error () ↔
      ¬ OccursIn "logout".data (text.data.map lowChar) ∧
      ¬ OccursIn "salir".data (text.data.map lowChar) ∧
      ¬ OccursIn "duty".data (text.data.map lowChar) ∧
      EndsWithP url.data "/_login".data := by
  unfold login_check
  split_ifs with hA hB
  · simp only [Bool.and_eq_true, Bool.not_eq_true'] at hA hB
    constructor
    · intro _
      refine ⟨fun ho => ?_, fun hs => ?_, fun hd => ?_,
        (endsWith_iff url.data "/_login".data).mp hB.2⟩
      · rw [(containsSub_iff _ _).mpr ho] at hA
        exact absurd hA.1 (by simp)
      · rw [(containsSub_iff _ _).mpr hs] at hA
        exact absurd hA.2 (by simp)
      · rw [(containsSub_iff _ _).mpr hd] at hB
        exact absurd hB.1 (by simp)
    · intro _
      rfl
  · constructor
    · intro h
      cases h
    · rintro ⟨-, -, hd, he⟩
      exfalso
      apply hB
      rw [Bool.and_eq_true, Bool.not_eq_true']
      refine ⟨Bool.eq_false_iff.mpr fun ht => hd ((containsSub_iff _ _).mp ht), ?_⟩
      exact (endsWith_iff url.data "/_login".data).mpr he
  · constructor
    · intro h
      cases h
    · rintro ⟨hl, hs, -, -⟩
      exfalso
      apply hA
      simp only [Bool.and_eq_true, Bool.not_eq_true']
      exact ⟨Bool.eq_false_iff.mpr fun ht => hl ((containsSub_iff _ _).mp ht),
        Bool.eq_false_iff.mpr fun ht => hs ((containsSub_iff _ _).mp ht)⟩

/-! ## Claims -/

/-- C1 counterexample: a label list containing "I" (together with the
rest marker "DESCANSO") with has-both-times = true is classified
DESCANSO, not SERVICIO — the earlier DESCANSO rule still precedes rule 4,
so the claimed consequence "every label list containing I with both times
yields SERVICIO" fails. -/
theorem c1_counterexample :
    detect_status ["DESCANSO", "I"] true = "DESCANSO" ∧
    detect_status ["DESCANSO", "I"] true ≠ "SERVICIO" := by decide

/-- C1 (amended): the classifier maps into the five statuses with the
first-match-wins order LD (substring of the space-joined upper-cased
labels), whole-word DESCANSO, whole-word I (only without both times),
SERVICIO (with both times), else LIBRE; a list containing both "LD" and
"DESCANSO" yields LD, and a list containing "I" with both times present
yields SERVICIO provided no earlier rule (LD substring, whole-word
DESCANSO) fires. -/
theorem c1_status_tie_break :
    (∀ (texts : List String) (hh : Bool),
      detect_status texts hh ∈ ["LD", "DESCANSO", "I", "SERVICIO", "LIBRE"]) ∧
    (∀ (texts : List String) (hh : Bool), "LD" ∈ texts → "DESCANSO" ∈ texts →
      detect_status texts hh = "LD") ∧
    (∀ (texts : List String) (hh : Bool), OccursIn ['L', 'D'] (joinedOf texts).data →
      detect_status texts hh = "LD") ∧
    (∀ (texts : List String) (hh : Bool), ¬ OccursIn ['L', 'D'] (joinedOf texts).data →
      HasWordP (joinedOf texts).data ['D', 'E', 'S', 'C', 'A', 'N', 'S', 'O'] →
      detect_status texts hh = "DESCANSO") ∧
    (∀ texts : List String, "I" ∈ texts → ¬ OccursIn ['L', 'D'] (joinedOf texts).data →
      ¬ HasWordP (joinedOf texts).data ['D', 'E', 'S', 'C', 'A', 'N', 'S', 'O'] →
      detect_status texts true = "SERVICIO") ∧
    (∀ texts : List String, ¬ OccursIn ['L', 'D'] (joinedOf texts).data →
      ¬ HasWordP (joinedOf texts).data ['D', 'E', 'S', 'C', 'A', 'N', 'S', 'O'] →
      HasWordP (joinedOf texts).data ['I'] → detect_status texts false = "I") ∧
    (∀ texts : List String, ¬ OccursIn ['L', 'D'] (joinedOf texts).data →
      ¬ HasWordP (joinedOf texts).data ['D', 'E', 'S', 'C', 'A', 'N', 'S', 'O'] →
      ¬ HasWordP (joinedOf texts).data ['I'] → detect_status texts false = "LIBRE") := by
  refine ⟨detect_mem, ?_, detect_LD, detect_DESCANSO, ?_, detect_I, detect_LIBRE⟩
  · intro texts hh hLD _
    exact detect_LD_of_label texts hh "LD" hLD ⟨[], [], by decide⟩
  · intro texts _ h1 h2
    exact detect_servicio texts h1 h2

/-- C1 witness: concrete instances of the amended tie-break rules. -/
theorem c1_witness :
    detect_status ["LD", "DESCANSO"] false = "LD" ∧
    detect_status ["descanso"] true = "DESCANSO" ∧
    detect_status ["I"] true = "SERVICIO" := by
  refine ⟨c1_status_tie_break.2.1 ["LD", "DESCANSO"] false (by decide) (by decide), ?_, ?_⟩
  · exact c1_status_tie_break.2.2.2.1 ["descanso"] true
      (fun ho => absurd ((containsSub_iff _ _).mpr ho) (by decide))
      ((hasWord_iff _ _ (by decide)).mp (by decide))
  · exact c1_status_tie_break.2.2.2.2.1 ["I"] (by decide)
      (fun ho => absurd ((containsSub_iff _ _).mpr ho) (by decide))
      (fun hw => absurd ((hasWord_iff _ _ (by decide)).mpr hw) (by decide))

/-- C2 counterexample: with a start cell "8:5" and an end cell "16:30",
the produced record does not have start "08:05" and is not classified
SERVICIO — `parse_time`'s pattern requires a two-digit minute, so the
start cell yields nothing. -/
theorem c2_counterexample :
    (parse_day "2025-10-19" "duty-details?beginDate=2025-10-19"
        ⟨none, some [⟨some "8:5", some "16:30", none, none, none, none⟩]⟩).start ≠
      some "08:05" ∧
    (parse_day "2025-10-19" "duty-details?beginDate=2025-10-19"
        ⟨none, some [⟨some "8:5", some "16:30", none, none, none, none⟩]⟩).status ≠
      "SERVICIO" := by decide

/-- C2 (amended): the "8:5"/"16:30" table yields start = none (the
one-digit minute is rejected by the time-extraction pattern, although the
normaliser alone would pad it), end = "16:30", overnight = false and
status LIBRE. -/
theorem c2_one_digit_minute_day :
    parse_day "2025-10-19" "duty-details?beginDate=2025-10-19"
        ⟨none, some [⟨some "8:5", some "16:30", none, none, none, none⟩]⟩ =
      ⟨"2025-10-19", "LIBRE", none, none, some "16:30", false, none, none, none,
        "duty-details?beginDate=2025-10-19", []⟩ ∧
    norm_hhmm "8:5" = some "08:05" ∧ parse_time "8:5" = none := by decide

/-- C3 counterexample: when neither the loaded page nor the polyfill
fragment holds a day identifier, the orchestrator aborts with the
`RuntimeError` message instead of enumerating the month's dates. -/
theorem c3_counterexample :
    resolveDates "<html><body>portal</body></html>" "<div>vacío</div>" =
      Except.error "No se encontraron fechas en el mes" := rfl

/-- C3 (amended): whenever no `beginDate=YYYY-MM-DD` identifier occurs in
either fetched text, month discovery raises `RuntimeError` and the run
aborts; no synthetic enumeration of calendar dates exists. -/
theorem c3_no_dates_aborts (fullHtml polyfillHtml : String)
    (h1 : ¬ HasDateRef fullHtml.data) (h2 : ¬ HasDateRef polyfillHtml.data) :
    resolveDates fullHtml polyfillHtml = Except.error "No se encontraron fechas en el mes" := by
  unfold resolveDates
  rw [extract_dates_nil fullHtml h1, extract_dates_nil polyfillHtml h2]
  rfl

/-- C3 witness: the abort on concretely empty fetched texts. -/
theorem c3_witness :
    resolveDates "" "" = Except.error "No se encontraron fechas en el mes" := by
  have hempty : ¬ HasDateRef ("" : String).data := by
    rintro ⟨pre, dd, post, heq, hdg⟩
    rcases hdg with ⟨y1, y2, y3, y4, n1, n2, k1, k2, rfl, -⟩
    have hlen := congrArg List.length heq
    simp [List.length_append] at hlen
    omega
  exact c3_no_dates_aborts "" "" hempty hempty

/-- C4 counterexample: a post-login response without any positive
logout/sign-out marker whose text mentions "duty" is accepted, so the
run is not aborted on every marker-free response. -/
theorem c4_counterexample :
    login_check "duty overview" "https://wcrew.example/_login" = Except.ok () ∧
    containsSub ("duty overview".data.map lowChar) "logout".data = false ∧
    containsSub ("duty overview".data.map lowChar) "salir".data = false := by
  refine ⟨rfl, by decide, by decide⟩

/-- C5: the overnight predicate is false whenever either bound is absent,
and on canonical `HH:MM` bounds it is true exactly when the end minutes
are strictly below the start minutes. -/
theorem c5_overnight_spec :
    (∀ e : Option String, is_overnight none e = false) ∧
    (∀ s : Option String, is_overnight s none = false) ∧
    (∀ h1 m1 h2 m2 : Nat, h1 < 24 → m1 < 60 → h2 < 24 → m2 < 60 →
      (is_overnight (some (canonHHMM h1 m1)) (some (canonHHMM h2 m2)) = true ↔
        h2 * 60 + m2 < h1 * 60 + m1)) := by
  refine ⟨fun e => rfl, fun s => ?_, fun h1 m1 h2 m2 hh1 hm1 hh2 hm2 => ?_⟩
  · cases s with
    | none => rfl
    | some x => simp [is_overnight]
  · unfold is_overnight
    rw [truthy_canon h1 m1, truthy_canon h2 m2]
    simp only [Bool.not_true, Bool.or_self, Bool.false_eq_true, if_false]
    rw [hhmmToMinutes_canon h1 m1 hh1 hm1, hhmmToMinutes_canon h2 m2 hh2 hm2]
    simp only [decide_eq_true_eq]
    omega

/-- C5 witness: a concrete midnight-crossing pair and an absent bound. -/
theorem c5_witness :
    is_overnight (some (canonHHMM 23 10)) (some (canonHHMM 5 40)) = true ∧
    is_overnight none (some (canonHHMM 16 30)) = false := by
  constructor
  · exact (c5_overnight_spec.2.2 23 10 5 40 (by decide) (by decide) (by decide)
      (by decide)).mpr (by decide)
  · exact c5_overnight_spec.1 (some (canonHHMM 16 30))

/-- C7 counterexample: on a text holding the tokens "23:10" and "05:40"
the fallback records "23" and "05" — the hour components — not the full
first and last `HH:MM` tokens claimed. -/
theorem c7_counterexample :
    parse_day_fallback_times "sale 23:10 y llega 05:40" = some ⟨"23", "05"⟩ ∧
    ("23" : String) ≠ "23:10" ∧ ("05" : String) ≠ "05:40" := by decide

/-- C7 (amended): the fallback scans the visible text for `HORA_RE` time
tokens, but `re.findall` returns the capture group, so only the HOUR
component of the first match becomes `hora_inicio` and the hour component
of the last match becomes `hora_fin`; with no match no row is produced;
every collected group is the hour part of a genuine time-token occurrence
in the text. -/
theorem c7_fallback_hours :
    (∀ text : String, findHoras text.data = [] → parse_day_fallback_times text = none) ∧
    (∀ (text : String) (g : List Char) (gs : List (List Char)),
      findHoras text.data = g :: gs →
      parse_day_fallback_times text =
        some ⟨String.mk g, String.mk ((g :: gs).getLast (List.cons_ne_nil g gs))⟩) ∧
    (∀ (text : String) (g : List Char), g ∈ findHoras text.data →
      TimeTokenOccurs text.data g) := by
  refine ⟨?_, ?_, ?_⟩
  · intro text h
    unfold parse_day_fallback_times
    rw [h]
  · intro text g gs h
    unfold parse_day_fallback_times
    rw [h]
  · intro text g hg
    exact findHoras_sound text.data g hg

/-- C7 witness: a concrete text with one time token. -/
theorem c7_witness :
    parse_day_fallback_times "a 9:30 b" = some ⟨"9", "9"⟩ ∧
    TimeTokenOccurs "a 9:30 b".data ['9'] := by
  constructor
  · exact (c7_fallback_hours.2.1 "a 9:30 b" ['9'] [] (by decide)).trans (by decide)
  · exact c7_fallback_hours.2.2 "a 9:30 b" ['9'] (by decide)

/-- C8 counterexample: the "23:10"/"05:40" day is overnight but its notes
list is empty — no midnight-crossing diagnostic annotation is recorded. -/
theorem c8_counterexample :
    (parse_day "2025-10-20" "h"
        ⟨none, some [⟨some "23:10", some "05:40", none, none, none, none⟩]⟩).overnight =
      true ∧
    (parse_day "2025-10-20" "h"
        ⟨none, some [⟨some "23:10", some "05:40", none, none, none, none⟩]⟩).notes =
      [] := by decide

/-- C8 (amended): the "23:10"/"05:40" table yields overnight = true and
status SERVICIO, but the notes field is the empty list: `parse_day` sets
`notes` to `[]` on every input and never appends a diagnostic. -/
theorem c8_overnight_no_note :
    parse_day "2025-10-20" "h"
        ⟨none, some [⟨some "23:10", some "05:40", none, none, none, none⟩]⟩ =
      ⟨"2025-10-20", "SERVICIO", none, some "23:10", some "05:40", true, none, none, none,
        "h", []⟩ ∧
    (∀ (d hf : String) (inp : DayInput), (parse_day d hf inp).notes = []) := by
  exact ⟨by decide, fun d hf inp => rfl⟩

/-- C9: the day loop returns exactly the records of the fetch-successful
days (each the unchanged `parse_day` of its own input) plus one diagnostic
line per failing day; every record's status is one of the five values (no
error status exists); and a failing day's date is absent from the output
dates. -/
theorem c9_day_failures_isolated :
    (∀ (days : List (String × String)) (fetch : String → Option DayInput),
      (month_day_loop days fetch).1 =
        days.filterMap fun p => (fetch p.2).map fun inp => parse_day p.1 p.2 inp) ∧
    (∀ (days : List (String × String)) (fetch : String → Option DayInput),
      (month_day_loop days fetch).2 =
        (days.filter fun p => (fetch p.2).isNone).map fun p => diagMsg p.1) ∧
    (∀ (days : List (String × String)) (fetch : String → Option DayInput),
      ∀ r ∈ (month_day_loop days fetch).1,
        r.status ∈ ["LD", "DESCANSO", "I", "SERVICIO", "LIBRE"]) ∧
    (∀ (days : List (String × String)) (fetch : String → Option DayInput),
      ∀ p ∈ days, fetch p.2 = none → (days.map Prod.fst).Nodup →
        p.1 ∉ (month_day_loop days fetch).1.map DiaTurno.date) := by
  refine ⟨?_, ?_, ?_, ?_⟩
  · intro days fetch
    rw [month_day_loop_eq]
  · intro days fetch
    rw [month_day_loop_eq]
  · intro days fetch r hr
    rw [month_day_loop_eq] at hr
    rcases List.mem_filterMap.mp hr with ⟨p, hp, hmap⟩
    rcases Option.map_eq_some'.mp hmap with ⟨inp, hf, rfl⟩
    exact detect_mem _ _
  · intro days fetch p hp hf hn
    rw [month_day_loop_eq]
    rw [dates_of_loop days fetch]
    exact fst_not_mem_filter days _ p hp (by rw [hf]; rfl) hn

/-- C9 witness: with the second of two days failing, its date is absent
from the output dates. -/
theorem c9_witness :
    ("2025-10-02" : String) ∉
      (month_day_loop [("2025-10-01", "a"), ("2025-10-02", "b")]
          fun href => if href = "a" then some ⟨none, none⟩ else none).1.map
        DiaTurno.date := by
  exact c9_day_failures_isolated.2.2.2
    [("2025-10-01", "a"), ("2025-10-02", "b")]
    (fun href => if href = "a" then some ⟨none, none⟩ else none)
    ("2025-10-02", "b") (by decide) (by decide) (by decide)

/-- C10: the classifier matches "LD" as a plain substring of the joined
upper-cased labels: whenever any label's upper-casing contains the letters
"LD" anywhere — also inside a longer word — the result is LD, for every
value of the has-both-times flag (hence also when DESCANSO is present or
both service times were found). -/
theorem c10_ld_substring (texts : List String) (hh : Bool) (t : String) (ht : t ∈ texts)
    (hld : OccursIn ['L', 'D'] (pyUpper t).data) : detect_status texts hh = "LD" :=
  detect_LD_of_label texts hh t ht hld

/-- C10 witness: "Soldado" contains "LD" inside a longer word, and wins
over DESCANSO and has-both-times = true. -/
theorem c10_witness : detect_status ["Soldado", "DESCANSO"] true = "LD" :=
  c10_ld_substring ["Soldado", "DESCANSO"] true "Soldado" (by decide)
    ⟨['S', 'O'], ['A', 'D', 'O'], by decide⟩
